import Mathlib

/-!
Shallow embedding of `src/alloc_nd_array.c` (alloc_nd_array library, v0.9.5).

Modelling conventions:
- `size_t` values are `Nat`, on a 64-bit platform: `W = 2^64`, `SIZE_MAX = W - 1`,
  `sizeof(void*) = PTRSIZE = 8`.  Arithmetic that the C code performs *after* an
  explicit guard (so that it cannot wrap) is written as plain `Nat` arithmetic;
  the one unguarded `size_t` addition in the source (`total_ptrs += total_elements`,
  line 118) is modelled with an explicit `% W`, and the unguarded request-size
  additions in `allocate_and_initialize_nd_array` (lines 152 and 162) likewise.
- The diagnostic side channel (`errno`, `anda_errfunc`) is threaded explicitly as
  a `Diag` value.
- The three output pointers of `calculate_nd_array_size` are modelled as a `Outs`
  triple of cell contents plus three booleans saying whether the corresponding
  pointer argument is NULL; the function returns the new cell contents.
- Addresses are byte offsets from the allocated block base (base = 0).  The
  pointer-table writes performed by `allocate_and_initialize_nd_array` are
  modelled as a list of (byte-address, stored byte-address) pairs, in program
  order.  The allocation primitive is a caller-supplied oracle `Nat → Bool`
  (does an allocation of this many bytes succeed); the model also returns the
  list of sizes requested from the primitive.
-/

namespace AllocNdArray

def W : Nat := 2 ^ 64

def SIZE_MAX : Nat := W - 1

def PTRSIZE : Nat := 8

def EINVAL : Nat := 22

def ENOMEM : Nat := 12

/-- State of the diagnostic side channel: `errno` and `anda_errfunc`. -/
structure Diag where
  errno : Nat
  errfunc : Option String
deriving DecidableEq, Repr

/-- Contents of the three output cells of `calculate_nd_array_size`:
`*result_ptrs_size`, `*result_padding_size`, `*result_total_elements`. -/
structure Outs where
  ptrs : Nat
  padding : Nat
  total : Nat
deriving DecidableEq, Repr

/-- 64-bit bitwise complement: `~x` on a 64-bit `size_t` (for `x ≤ SIZE_MAX`). -/
def NOT64 (x : Nat) : Nat := SIZE_MAX - x

/-- `anda_align_up` (alloc_nd_array.c lines 67-79).  Returns the aligned value
and the updated diagnostic state; `0` doubles as the failure sentinel. -/
def anda_align_up (value alignment : Nat) (d : Diag) : Nat × Diag :=
  if alignment = 1 then (value, d)
  else if alignment = 0 ∨ value > SIZE_MAX - (alignment - 1) then
    (0, { d with errno := EINVAL })
  else if alignment &&& (alignment - 1) = 0 then
    ((value + (alignment - 1)) &&& NOT64 (alignment - 1), d)
  else
    ((value + (alignment - 1)) / alignment * alignment, d)

/-- The `for (i = 0; i < dims; i++)` loop of `calculate_nd_array_size`
(lines 109-119): multiplies `total_elements` by each extent with an overflow
guard, and accumulates `total_ptrs` for every dimension but the last.  The
accumulation `total_ptrs += total_elements` is unguarded `size_t` addition,
hence the `% W`.  Returns `none` on the loop's failure exit. -/
def calcLoop : List Nat → Nat → Nat → Option (Nat × Nat)
  | [], total_elements, total_ptrs => some (total_elements, total_ptrs)
  | [s], total_elements, total_ptrs =>
    if s = 0 ∨ total_elements > SIZE_MAX / s then none
    else some (total_elements * s, total_ptrs)
  | s :: r :: rs, total_elements, total_ptrs =>
    if s = 0 ∨ total_elements > SIZE_MAX / s then none
    else calcLoop (r :: rs) (total_elements * s)
      ((total_ptrs + total_elements * s) % W)

/-- The final size check and result write of `calculate_nd_array_size`
(lines 136-146). -/
def calcFinal (size_ptrs size_padding total_elements elem_size : Nat) (d : Diag) :
    Bool × Outs × Diag :=
  if total_elements > SIZE_MAX / elem_size ∨
      total_elements * elem_size > SIZE_MAX - size_ptrs - size_padding then
    (false, ⟨0, 0, 1⟩, ⟨EINVAL, some "calculate_nd_array_size"⟩)
  else (true, ⟨size_ptrs, size_padding, total_elements⟩, d)

/-- `calculate_nd_array_size` (lines 83-147).  `sizes` is the extents array
(its length is `dims`); `np`, `npad`, `ntot` say whether the corresponding
output pointer is NULL; `outs0` is the prior contents of the output cells. -/
def calculate_nd_array_size (sizes : List Nat) (elem_size : Nat)
    (np npad ntot : Bool) (outs0 : Outs) (d : Diag) : Bool × Outs × Diag :=
  if elem_size = 0 ∨ sizes.length = 0 ∨ np = true ∨ npad = true ∨ ntot = true then
    (false, outs0, ⟨EINVAL, some "calculate_nd_array_size"⟩)
  else
    -- lines 91-93: *result_ptrs_size = 0; *result_padding_size = 0;
    -- *result_total_elements = 1;  (subsequent failure exits return these)
    if sizes.length = 1 then
      if sizes.headD 0 = 0 ∨ sizes.headD 0 > SIZE_MAX / elem_size then
        (false, ⟨0, 0, 1⟩, ⟨EINVAL, some "calculate_nd_array_size"⟩)
      else (true, ⟨0, 0, sizes.headD 0⟩, d)
    else
      match calcLoop sizes 1 0 with
      | none => (false, ⟨0, 0, 1⟩, ⟨EINVAL, some "calculate_nd_array_size"⟩)
      | some (total_elements, total_ptrs) =>
        -- line 121: this failure exit sets neither errno nor anda_errfunc
        if total_ptrs > SIZE_MAX / PTRSIZE then (false, ⟨0, 0, 1⟩, d)
        else if elem_size > PTRSIZE then
          if (anda_align_up (total_ptrs * PTRSIZE) elem_size d).1 = 0 then
            (false, ⟨0, 0, 1⟩, ⟨EINVAL, some "calculate_nd_array_size"⟩)
          else
            calcFinal (total_ptrs * PTRSIZE)
              ((anda_align_up (total_ptrs * PTRSIZE) elem_size d).1 - total_ptrs * PTRSIZE)
              total_elements elem_size
              (anda_align_up (total_ptrs * PTRSIZE) elem_size d).2
        else calcFinal (total_ptrs * PTRSIZE) 0 total_elements elem_size d

/-- The pointer-table construction of `allocate_and_initialize_nd_array`
(lines 171-189), producing the list of (byte address, stored byte address)
writes in program order.  Arguments: remaining extents (the suffix of `sizes`
starting at the current level), `off` = index (in pointer cells) of the start
of the current level, `curr` = the value of `curr_level` before the current
iteration.  A suffix of length ≥ 3 is an intermediate level (the `d < dims-2`
loop); a suffix of length 2 is the last pointer level (lines 186-189), whose
cell count is `total_elements / sizes[dims-1]` and whose targets are byte
offsets into the data region starting at `base = size_ptrs + size_padding`. -/
def buildFrom (elem_size base total_elements : Nat) :
    List Nat → Nat → Nat → List (Nat × Nat)
  | s0 :: s1 :: s2 :: rest, off, curr =>
    let c := curr * s0
    ((List.range c).map fun i => (PTRSIZE * (off + i), PTRSIZE * (off + c + i * s1)))
      ++ buildFrom elem_size base total_elements (s1 :: s2 :: rest) (off + c) c
  | [_s0, s1], off, _curr =>
    (List.range (total_elements / s1)).map fun i =>
      (PTRSIZE * (off + i), base + i * s1 * elem_size)
  | _, _, _ => []

/-- All pointer-cell writes performed by `allocate_and_initialize_nd_array`
for `dims ≥ 2` (the `dims == 1` path performs none). -/
def buildWrites (sizes : List Nat) (elem_size size_ptrs size_padding total_elements : Nat) :
    List (Nat × Nat) :=
  buildFrom elem_size (size_ptrs + size_padding) total_elements sizes 0 1

/-- `allocate_and_initialize_nd_array` (lines 150-192).  `alloc` is the
injected allocation primitive, as an oracle telling whether a request of a
given byte size succeeds.  Returns (the writes of the initialized block, or
`none` on failure; the list of sizes requested from `alloc`; the diagnostic
state).  Request sizes are unguarded `size_t` sums, hence `% W`. -/
def allocate_and_initialize_nd_array (sizes : List Nat)
    (elem_size size_ptrs size_padding total_elements : Nat)
    (alloc : Nat → Bool) (d : Diag) :
    Option (List (Nat × Nat)) × List Nat × Diag :=
  if sizes.length = 1 then
    if alloc (total_elements * elem_size % W) then
      (some [], [total_elements * elem_size % W], d)
    else
      (none, [total_elements * elem_size % W],
        ⟨ENOMEM, some "allocate_and_initialize_nd_array"⟩)
  else
    if alloc ((size_ptrs + size_padding + total_elements * elem_size) % W) then
      (some (buildWrites sizes elem_size size_ptrs size_padding total_elements),
        [(size_ptrs + size_padding + total_elements * elem_size) % W], d)
    else
      (none, [(size_ptrs + size_padding + total_elements * elem_size) % W],
        ⟨ENOMEM, some "allocate_and_initialize_nd_array"⟩)

/-- `alloc_nd_array` (lines 195-208). -/
def alloc_nd_array (sizes : List Nat) (elem_size : Nat) (alloc : Nat → Bool)
    (outs0 : Outs) (d : Diag) : Option (List (Nat × Nat)) × List Nat × Diag :=
  match calculate_nd_array_size sizes elem_size false false false outs0 d with
  | (false, _, d1) => (none, [], ⟨d1.errno, some "alloc_nd_array"⟩)
  | (true, o, d1) =>
    match allocate_and_initialize_nd_array sizes elem_size o.ptrs o.padding o.total alloc d1 with
    | (none, calls, d2) => (none, calls, ⟨d2.errno, some "alloc_nd_array"⟩)
    | (some ws, calls, d2) => (some ws, calls, d2)

/-- `calloc_nd_array` (lines 211-224); identical to `alloc_nd_array` except
for the zero-filling primitive, which the layout-level model does not
distinguish. -/
def calloc_nd_array (sizes : List Nat) (elem_size : Nat) (alloc : Nat → Bool)
    (outs0 : Outs) (d : Diag) : Option (List (Nat × Nat)) × List Nat × Diag :=
  match calculate_nd_array_size sizes elem_size false false false outs0 d with
  | (false, _, d1) => (none, [], ⟨d1.errno, some "calloc_nd_array"⟩)
  | (true, o, d1) =>
    match allocate_and_initialize_nd_array sizes elem_size o.ptrs o.padding o.total alloc d1 with
    | (none, calls, d2) => (none, calls, ⟨d2.errno, some "calloc_nd_array"⟩)
    | (some ws, calls, d2) => (some ws, calls, d2)

/-- `alloc_nd_array_manual_padding` (lines 232-245): the automatically
computed padding is discarded and the caller-supplied `padding_bytes` is
passed to the block builder instead. -/
def alloc_nd_array_manual_padding (sizes : List Nat) (padding_bytes elem_size : Nat)
    (alloc : Nat → Bool) (outs0 : Outs) (d : Diag) :
    Option (List (Nat × Nat)) × List Nat × Diag :=
  match calculate_nd_array_size sizes elem_size false false false outs0 d with
  | (false, _, d1) => (none, [], ⟨d1.errno, some "alloc_nd_array_manual_padding"⟩)
  | (true, o, d1) =>
    match allocate_and_initialize_nd_array sizes elem_size o.ptrs padding_bytes o.total alloc d1 with
    | (none, calls, d2) => (none, calls, ⟨d2.errno, some "alloc_nd_array_manual_padding"⟩)
    | (some ws, calls, d2) => (some ws, calls, d2)

/-- `calloc_nd_array_manual_padding` (lines 248-261). -/
def calloc_nd_array_manual_padding (sizes : List Nat) (padding_bytes elem_size : Nat)
    (alloc : Nat → Bool) (outs0 : Outs) (d : Diag) :
    Option (List (Nat × Nat)) × List Nat × Diag :=
  match calculate_nd_array_size sizes elem_size false false false outs0 d with
  | (false, _, d1) => (none, [], ⟨d1.errno, some "calloc_nd_array_manual_padding"⟩)
  | (true, o, d1) =>
    match allocate_and_initialize_nd_array sizes elem_size o.ptrs padding_bytes o.total alloc d1 with
    | (none, calls, d2) => (none, calls, ⟨d2.errno, some "calloc_nd_array_manual_padding"⟩)
    | (some ws, calls, d2) => (some ws, calls, d2)

/-! Specification-side notions used to state the claims. -/

/-- Product of all extents. -/
def prodList (l : List Nat) : Nat := l.foldr (· * ·) 1

/-- Sum, over levels `0 .. dims-2`, of the cumulative product of extents up
to that level (the mathematical pointer-cell count, without any wrapping). -/
def sumPtrsAux : List Nat → Nat → Nat
  | [], _ => 0
  | [_], _ => 0
  | s :: rest, acc => acc * s + sumPtrsAux rest (acc * s)

/-- Sum of cumulative extent products over all levels but the last. -/
def sumPtrs (l : List Nat) : Nat := sumPtrsAux l 1

/-- Row-major flattening of a multi-index, with accumulator `g`. -/
def flatFrom (g : Nat) : List Nat → List Nat → Nat
  | s :: ss, i :: is => flatFrom (g * s + i) ss is
  | _, _ => g

/-- Row-major flat index of multi-index `ix` in shape `sizes`. -/
def flatIndex (sizes ix : List Nat) : Nat := flatFrom 0 sizes ix

/-- `ix` is an in-range multi-index for shape `sizes`. -/
def validIx : List Nat → List Nat → Bool
  | [], [] => true
  | i :: is, s :: ss => decide (i < s) && validIx is ss
  | _, _ => false

/-- The least multiple of `a` at or above `v` (for `a ≥ 1`). -/
def nextMultiple (v a : Nat) : Nat := (v + (a - 1)) / a * a

/-- Read the pointer cell written at byte address `a` (the write addresses
produced by the builder are distinct, so the first match is the cell). -/
def memFind (ws : List (Nat × Nat)) (a : Nat) : Option Nat :=
  (ws.find? fun p => p.1 == a).map Prod.snd

/-- Follow the constructed pointer chain: starting from the byte address of a
pointer table, consume one index per dimension; each non-final index reads a
pointer cell, the final index adds an element offset into a data row. -/
def chase (ws : List (Nat × Nat)) (elem_size : Nat) : List Nat → Nat → Option Nat
  | [], a => some a
  | [i], a => some (a + i * elem_size)
  | i :: j :: rest, a =>
    match memFind ws (a + PTRSIZE * i) with
    | none => none
    | some v => chase ws elem_size (j :: rest) v

/-- Inputs that reach the one silent failure exit of `calculate_nd_array_size`
(line 121): the argument validation and the extent loop pass, but the
(possibly wrapped) `total_ptrs` exceeds `SIZE_MAX / sizeof(void*)`. -/
def hitsPtrOverflow (sizes : List Nat) (elem_size : Nat) : Bool :=
  decide (elem_size ≠ 0) && decide (2 ≤ sizes.length) &&
    (match calcLoop sizes 1 0 with
     | some (_, tp) => decide (tp > SIZE_MAX / PTRSIZE)
     | none => false)

/-! Supporting lemmas about the layout calculator. -/

theorem calcLoop_total : ∀ (l : List Nat) (t p te tp : Nat),
    calcLoop l t p = some (te, tp) → te = t * prodList l
  | [], t, p, te, tp => by
    intro h
    simp only [calcLoop, Option.some.injEq, Prod.mk.injEq] at h
    simp [prodList, ← h.1]
  | [s], t, p, te, tp => by
    intro h
    simp only [calcLoop] at h
    split at h
    · exact absurd h (by simp)
    · simp only [Option.some.injEq, Prod.mk.injEq] at h
      simp [prodList, ← h.1]
  | s :: r :: rs, t, p, te, tp => by
    intro h
    simp only [calcLoop] at h
    split at h
    · exact absurd h (by simp)
    · have := calcLoop_total (r :: rs) (t * s) ((p + t * s) % W) te tp h
      simp only [prodList, List.foldr_cons] at this ⊢
      rw [this]; ring

theorem calcFinal_ok (size_ptrs size_padding total_elements elem_size : Nat)
    (d : Diag) (o : Outs) (d1 : Diag) (hepos : 0 < elem_size)
    (h : calcFinal size_ptrs size_padding total_elements elem_size d = (true, o, d1)) :
    o = ⟨size_ptrs, size_padding, total_elements⟩ ∧ d1 = d ∧
      total_elements * elem_size ≤ SIZE_MAX ∧
      total_elements * elem_size ≤ SIZE_MAX - size_ptrs - size_padding := by
  unfold calcFinal at h
  split at h
  · exact absurd h (by simp)
  · rename_i hfin
    push_neg at hfin
    simp only [Prod.mk.injEq, true_and] at h
    exact ⟨h.1.symm, h.2.symm, (Nat.le_div_iff_mul_le hepos).mp hfin.1, hfin.2⟩

theorem calc_ok_facts (sizes : List Nat) (elem_size : Nat) (outs0 : Outs)
    (d : Diag) (o : Outs) (d1 : Diag)
    (h : calculate_nd_array_size sizes elem_size false false false outs0 d = (true, o, d1)) :
    elem_size ≠ 0 ∧ o.total = prodList sizes ∧ o.total * elem_size ≤ SIZE_MAX := by
  unfold calculate_nd_array_size at h
  split at h
  · exact absurd h (by simp)
  · rename_i hguard
    have he : elem_size ≠ 0 := fun h0 => hguard (Or.inl h0)
    have hepos : 0 < elem_size := Nat.pos_of_ne_zero he
    refine ⟨he, ?_⟩
    split at h
    · rename_i hlen1
      split at h
      · exact absurd h (by simp)
      · rename_i hok
        obtain ⟨a, rfl⟩ := List.length_eq_one.mp hlen1
        push_neg at hok
        simp only [List.headD] at h hok
        simp only [Prod.mk.injEq, true_and] at h
        obtain ⟨ho, -⟩ := h
        rw [← ho]
        exact ⟨by simp [prodList], (Nat.le_div_iff_mul_le hepos).mp hok.2⟩
    · rename_i hlen1
      match hLoop : calcLoop sizes 1 0 with
      | none => simp only [hLoop] at h; exact absurd h (by simp)
      | some (te, tp) =>
        simp only [hLoop] at h
        have hte : te = prodList sizes := by
          have := calcLoop_total sizes 1 0 te tp hLoop
          simpa using this
        split at h
        · exact absurd h (by simp)
        · split at h
          · split at h
            · exact absurd h (by simp)
            · obtain ⟨ho, -, hle, -⟩ := calcFinal_ok _ _ _ _ _ _ _ hepos h
              rw [ho]
              exact ⟨hte, hle⟩
          · obtain ⟨ho, -, hle, -⟩ := calcFinal_ok _ _ _ _ _ _ _ hepos h
            rw [ho]
            exact ⟨hte, hle⟩

theorem calcFinal_fail (size_ptrs size_padding total_elements elem_size : Nat)
    (d : Diag) (o : Outs) (d1 : Diag)
    (h : calcFinal size_ptrs size_padding total_elements elem_size d = (false, o, d1)) :
    o = ⟨0, 0, 1⟩ ∧ d1 = ⟨EINVAL, some "calculate_nd_array_size"⟩ := by
  unfold calcFinal at h
  split at h
  · simp only [Prod.mk.injEq, true_and] at h
    exact ⟨h.1.symm, h.2.symm⟩
  · exact absurd h (by simp)

/-- Any failure of `calculate_nd_array_size` that happens after the initial
argument validation leaves the output cells in the reset state `(0, 0, 1)`,
and apart from the silent `total_ptrs` overflow exit the diagnostic state
is set to `EINVAL` / `"calculate_nd_array_size"`. -/
theorem calc_fail_outs (sizes : List Nat) (elem_size : Nat) (np npad ntot : Bool)
    (outs0 : Outs) (d : Diag) (o : Outs) (d1 : Diag)
    (he : 1 ≤ elem_size) (hs : sizes ≠ [])
    (hnp : np = false) (hnpad : npad = false) (hntot : ntot = false)
    (h : calculate_nd_array_size sizes elem_size np npad ntot outs0 d = (false, o, d1)) :
    o = ⟨0, 0, 1⟩ := by
  subst hnp hnpad hntot
  unfold calculate_nd_array_size at h
  split at h
  · rename_i hg
    rcases hg with h0 | h0 | h0 | h0 | h0
    · omega
    · exact absurd (List.length_eq_zero.mp h0) hs
    · simp at h0
    · simp at h0
    · simp at h0
  · split at h
    · split at h
      · simp only [Prod.mk.injEq, true_and] at h
        exact h.1.symm
      · exact absurd h (by simp)
    · match hLoop : calcLoop sizes 1 0 with
      | none =>
        simp only [hLoop] at h
        simp only [Prod.mk.injEq, true_and] at h
        exact h.1.symm
      | some (te, tp) =>
        simp only [hLoop] at h
        split at h
        · simp only [Prod.mk.injEq, true_and] at h
          exact h.1.symm
        · split at h
          · split at h
            · simp only [Prod.mk.injEq, true_and] at h
              exact h.1.symm
            · exact (calcFinal_fail _ _ _ _ _ _ _ h).1
          · exact (calcFinal_fail _ _ _ _ _ _ _ h).1

theorem calc_fail_diag (sizes : List Nat) (elem_size : Nat) (np npad ntot : Bool)
    (outs0 : Outs) (d : Diag) (o : Outs) (d1 : Diag)
    (hhit : hitsPtrOverflow sizes elem_size = false)
    (h : calculate_nd_array_size sizes elem_size np npad ntot outs0 d = (false, o, d1)) :
    d1 = ⟨EINVAL, some "calculate_nd_array_size"⟩ := by
  unfold calculate_nd_array_size at h
  split at h
  · simp only [Prod.mk.injEq, true_and] at h
    exact h.2.symm
  · rename_i hguard
    have he : elem_size ≠ 0 := fun h0 => hguard (Or.inl h0)
    have hlen0 : sizes.length ≠ 0 := fun h0 => hguard (Or.inr (Or.inl h0))
    split at h
    · split at h
      · simp only [Prod.mk.injEq, true_and] at h
        exact h.2.symm
      · exact absurd h (by simp)
    · rename_i hlen1
      have hlen2 : 2 ≤ sizes.length := by omega
      match hLoop : calcLoop sizes 1 0 with
      | none =>
        simp only [hLoop] at h
        simp only [Prod.mk.injEq, true_and] at h
        exact h.2.symm
      | some (te, tp) =>
        simp only [hLoop] at h
        split at h
        · rename_i htp
          exfalso
          have : hitsPtrOverflow sizes elem_size = true := by
            unfold hitsPtrOverflow
            simp only [hLoop]
            simp [he, hlen2, htp]
          rw [this] at hhit
          exact absurd hhit (by simp)
        · split at h
          · split at h
            · simp only [Prod.mk.injEq, true_and] at h
              exact h.2.symm
            · exact (calcFinal_fail _ _ _ _ _ _ _ h).2
          · exact (calcFinal_fail _ _ _ _ _ _ _ h).2

/-! Bitwise facts needed for the align-up function. -/

theorem land_self_eq (n : Nat) : n &&& n = n := by
  apply Nat.eq_of_testBit_eq
  intro i
  rw [Nat.testBit_land, Bool.and_self]

theorem land_split (a b : Nat) :
    a &&& b = 2 * (a / 2 &&& b / 2) + a % 2 * (b % 2) := by
  have hc : a % 2 * (b % 2) ≤ 1 := by
    rcases Nat.mod_two_eq_zero_or_one a with h1 | h1 <;>
      rcases Nat.mod_two_eq_zero_or_one b with h2 | h2 <;> simp [h1, h2]
  apply Nat.eq_of_testBit_eq
  intro i
  match i with
  | 0 =>
    rw [Nat.testBit_land]
    simp only [Nat.testBit_zero]
    have hmod : (2 * (a / 2 &&& b / 2) + a % 2 * (b % 2)) % 2 = a % 2 * (b % 2) := by
      omega
    rw [hmod]
    rcases Nat.mod_two_eq_zero_or_one a with h1 | h1 <;>
      rcases Nat.mod_two_eq_zero_or_one b with h2 | h2 <;> simp [h1, h2]
  | i + 1 =>
    have hdiv : (2 * (a / 2 &&& b / 2) + a % 2 * (b % 2)) / 2 = a / 2 &&& b / 2 := by
      omega
    have hR : (2 * (a / 2 &&& b / 2) + a % 2 * (b % 2)).testBit (i + 1)
        = (a / 2 &&& b / 2).testBit i := by
      rw [Nat.testBit_add_one, hdiv]
    rw [hR, Nat.testBit_land, Nat.testBit_add_one, Nat.testBit_add_one, Nat.testBit_land]

/-- `a & (a-1) == 0` characterizes the powers of two (for `a > 0`), which is
the test the source uses to pick the bit-mask branch. -/
theorem pow2_of_land_pred (a : Nat) (ha : 0 < a) (h : a &&& (a - 1) = 0) :
    ∃ k, a = 2 ^ k := by
  induction a using Nat.strong_induction_on with
  | _ a ih =>
    rcases Nat.even_or_odd a with he | ho
    · obtain ⟨m, hm⟩ := he
      have hmod : a % 2 = 0 := by omega
      have hs := land_split a (a - 1)
      rw [h, hmod] at hs
      have hX : a / 2 &&& (a - 1) / 2 = 0 := by omega
      have hdiv : (a - 1) / 2 = a / 2 - 1 := by omega
      rw [hdiv] at hX
      obtain ⟨k, hk⟩ := ih (a / 2) (Nat.div_lt_self ha (by norm_num)) (by omega) hX
      refine ⟨k + 1, ?_⟩
      rw [pow_succ]
      omega
    · have hmod : a % 2 = 1 := Nat.odd_iff.mp ho
      have hs := land_split a (a - 1)
      have hdiv : (a - 1) / 2 = a / 2 := by omega
      have hmod1 : (a - 1) % 2 = 0 := by omega
      rw [h, hmod, hdiv, hmod1, land_self_eq] at hs
      exact ⟨0, by omega⟩

theorem SIZE_MAX_eq : SIZE_MAX = 18446744073709551615 := by norm_num [SIZE_MAX, W]

theorem W_eq : W = 18446744073709551616 := by norm_num [W]

theorem PTRSIZE_eq : PTRSIZE = 8 := rfl

/-- For a power-of-two alignment `2^k` (`k ≤ 64`) and `y < 2^64`, the
C mask computation `y & ~(2^k - 1)` equals the division-based rounding
`y / 2^k * 2^k`. -/
theorem land_mask_eq_div_mul (k y : Nat) (hk : k ≤ 64) (hy : y ≤ SIZE_MAX) :
    y &&& NOT64 (2 ^ k - 1) = y / 2 ^ k * 2 ^ k := by
  have hp1 : (1:Nat) ≤ 2 ^ k := Nat.one_le_two_pow
  have hp2 : (1:Nat) ≤ 2 ^ (64 - k) := Nat.one_le_two_pow
  have h2 : (2:Nat) ^ (64 - k) * 2 ^ k = 2 ^ 64 := by
    rw [← pow_add]
    congr 1
    omega
  have hmask : NOT64 (2 ^ k - 1) = (2 ^ (64 - k) - 1) <<< k := by
    rw [Nat.shiftLeft_eq, Nat.sub_mul, h2]
    unfold NOT64 SIZE_MAX W
    omega
  have hdiv : y / 2 ^ k * 2 ^ k = (y >>> k) <<< k := by
    rw [Nat.shiftRight_eq_div_pow, Nat.shiftLeft_eq]
  rw [hmask, hdiv]
  apply Nat.eq_of_testBit_eq
  intro i
  rw [Nat.testBit_land, Nat.testBit_shiftLeft, Nat.testBit_shiftLeft,
    Nat.testBit_shiftRight, Nat.testBit_two_pow_sub_one]
  by_cases hki : k ≤ i
  · have hik : k + (i - k) = i := by omega
    rw [hik]
    by_cases hi64 : i < 64
    · simp [hki, show i - k < 64 - k by omega]
    · have hyi : y.testBit i = false := by
        apply Nat.testBit_lt_two_pow
        calc y < 2 ^ 64 := by rw [SIZE_MAX_eq] at hy; norm_num; omega
        _ ≤ 2 ^ i := Nat.pow_le_pow_right (by norm_num) (by omega)
      simp [hyi]
  · simp [hki]

/-- For alignments `2 ≤ a ≤ SIZE_MAX` and non-overflowing values, both
branches of `anda_align_up` compute the least multiple of `a` at or above
`v` via the `(v + a - 1) / a * a` rounding. -/
theorem anda_align_up_eq_nextMultiple (v a : Nat) (d : Diag)
    (ha : 2 ≤ a) (haM : a ≤ SIZE_MAX) (hv : v ≤ SIZE_MAX - (a - 1)) :
    anda_align_up v a d = (nextMultiple v a, d) := by
  unfold anda_align_up
  rw [if_neg (by omega), if_neg (by push_neg; exact ⟨by omega, hv⟩)]
  split
  · rename_i hpow
    obtain ⟨k, rfl⟩ := pow2_of_land_pred a (by omega) hpow
    have hk64 : k ≤ 64 := by
      rw [SIZE_MAX_eq] at haM
      have h2 : (2:Nat) ^ k < 2 ^ 64 := by norm_num; omega
      have := (Nat.pow_lt_pow_iff_right (by norm_num : 1 < 2)).mp h2
      omega
    rw [land_mask_eq_div_mul k (v + (2 ^ k - 1)) hk64 (by rw [SIZE_MAX_eq] at haM hv ⊢; omega)]
    rfl
  · rfl

theorem nextMultiple_ge (v a : Nat) (ha : 0 < a) : v ≤ nextMultiple v a := by
  rcases Nat.eq_zero_or_pos v with rfl | hv
  · simp [nextMultiple]
  · unfold nextMultiple
    have hrw : v + (a - 1) = (v - 1) + a := by omega
    rw [hrw, Nat.add_div_right _ ha, Nat.add_mul, Nat.one_mul]
    have h1 : (v - 1) / a * a + (v - 1) % a = v - 1 := Nat.div_add_mod' _ _
    have h2 : (v - 1) % a < a := Nat.mod_lt _ ha
    omega

theorem nextMultiple_le (v a : Nat) : nextMultiple v a ≤ v + (a - 1) :=
  Nat.div_mul_le_self _ _

theorem nextMultiple_mod (v a : Nat) : nextMultiple v a % a = 0 := by
  unfold nextMultiple
  exact Nat.mul_mod_left _ _

/-! Claim theorems. -/

/-- C5: for `dims == 1` with non-null outputs and `elem_size ≥ 1`:
if `extents[0] ≥ 1` and `extents[0] * elem_size ≤ SIZE_MAX`,
`calculate_nd_array_size` succeeds with `ptrs = 0`, `padding = 0`,
`total = extents[0]`; if `extents[0] = 0` or the product overflows, it
fails. -/
theorem c5_one_dim (s0 elem_size : Nat) (outs0 : Outs) (d : Diag)
    (he : 1 ≤ elem_size) :
    ((1 ≤ s0 ∧ s0 * elem_size ≤ SIZE_MAX) →
      calculate_nd_array_size [s0] elem_size false false false outs0 d
        = (true, ⟨0, 0, s0⟩, d))
    ∧ ((s0 = 0 ∨ SIZE_MAX < s0 * elem_size) →
      (calculate_nd_array_size [s0] elem_size false false false outs0 d).1 = false) := by
  have hepos : 0 < elem_size := he
  have hdiv := Nat.le_div_iff_mul_le (x := s0) (y := SIZE_MAX) hepos
  constructor
  · rintro ⟨h1, h2⟩
    unfold calculate_nd_array_size
    rw [if_neg (by simp; omega), if_pos (by simp),
      if_neg (by simp only [List.headD]; push_neg; constructor <;> omega)]
    simp [List.headD]
  · rintro (h1 | h1)
    · unfold calculate_nd_array_size
      rw [if_neg (by simp; omega), if_pos (by simp),
        if_pos (by simp only [List.headD]; exact Or.inl h1)]
    · unfold calculate_nd_array_size
      rw [if_neg (by simp; omega), if_pos (by simp),
        if_pos (by simp only [List.headD]; right; omega)]

/-- Witness for C5 at `extents = [3]`, `elem_size = 4`. -/
theorem c5_one_dim_witness :
    calculate_nd_array_size [3] 4 false false false ⟨9, 9, 9⟩ ⟨0, none⟩
      = (true, ⟨0, 0, 3⟩, ⟨0, none⟩) :=
  (c5_one_dim 3 4 ⟨9, 9, 9⟩ ⟨0, none⟩ (by decide)).1 ⟨by decide, by decide⟩

/-- C4 (amended): on every failure path of `calculate_nd_array_size` other
than the initial argument-validation branch (`elem_size == 0`, `dims == 0`,
or a null output pointer), the three output cells hold the reset state
`(0, 0, 1)`; the initial branch returns before the reset and leaves the
output cells unchanged. -/
theorem c4_fail_outputs_amended (sizes : List Nat) (elem_size : Nat)
    (outs0 : Outs) (d : Diag) (he : 1 ≤ elem_size) (hs : sizes ≠ [])
    (hfail : (calculate_nd_array_size sizes elem_size false false false outs0 d).1 = false) :
    (calculate_nd_array_size sizes elem_size false false false outs0 d).2.1 = ⟨0, 0, 1⟩ := by
  rcases hc : calculate_nd_array_size sizes elem_size false false false outs0 d with ⟨b, o, d1⟩
  rw [hc] at hfail
  simp only at hfail
  subst hfail
  simp only
  exact calc_fail_outs sizes elem_size false false false outs0 d o d1 he hs rfl rfl rfl hc

/-- Witness for the amended C4 at the post-validation failure `[0]`, `elem 1`. -/
theorem c4_fail_outputs_amended_witness :
    (calculate_nd_array_size [0] 1 false false false ⟨5, 6, 7⟩ ⟨0, none⟩).2.1 = ⟨0, 0, 1⟩ :=
  c4_fail_outputs_amended [0] 1 ⟨5, 6, 7⟩ ⟨0, none⟩ (by decide) (by decide) (by decide)

/-- Counterexample to C4 as stated: on the `elem_size == 0` InvalidArgument
path the output cells are NOT reset — they keep their prior (stale) values,
because the reset happens after that validation in the source. -/
theorem c4_stale_outputs_counterexample :
    calculate_nd_array_size [2, 2] 0 false false false ⟨5, 6, 7⟩ ⟨0, none⟩
      = (false, ⟨5, 6, 7⟩, ⟨EINVAL, some "calculate_nd_array_size"⟩)
    ∧ (⟨5, 6, 7⟩ : Outs) ≠ ⟨0, 0, 1⟩ := by decide

/-- C2 (code bug): the accumulation `total_ptrs += total_elements` is
unguarded `size_t` arithmetic.  For extents `[2^61,1,1,1,1,1,1,1,2]` with
`elem_size = 1` the true pointer-cell sum is `2^64`, which wraps to `0`:
`calculate_nd_array_size` succeeds and reports `result_ptrs_size = 0`
instead of failing, while the sum the claim promises is `2^64 * 8 = 2^67`. -/
theorem c2_ptr_sum_wrap_bug :
    calculate_nd_array_size [2^61, 1, 1, 1, 1, 1, 1, 1, 2] 1 false false false
        ⟨0, 0, 0⟩ ⟨0, none⟩
      = (true, ⟨0, 0, 2^62⟩, ⟨0, none⟩)
    ∧ sumPtrs [2^61, 1, 1, 1, 1, 1, 1, 1, 2] * PTRSIZE = 2^67 := by decide

/-- C9 (code bug): on the same wrapped input, `calculate_nd_array_size`
succeeds with `size_ptrs = 0`, yet the block builder still writes a pointer
cell at byte offset `0` (and ~`8 * 2^61` more), so the writes are not
contained in the (empty) pointer region `[0, size_ptrs)`. -/
theorem c9_write_out_of_region_bug :
    calculate_nd_array_size [2^61, 1, 1, 1, 1, 1, 1, 1, 2] 1 false false false
        ⟨0, 0, 0⟩ ⟨0, none⟩
      = (true, ⟨0, 0, 2^62⟩, ⟨0, none⟩)
    ∧ (0, PTRSIZE * 2^61) ∈ buildWrites [2^61, 1, 1, 1, 1, 1, 1, 1, 2] 1 0 0 (2^62) := by
  refine ⟨by decide, ?_⟩
  unfold buildWrites buildFrom
  apply List.mem_append_left
  apply List.mem_map.mpr
  refine ⟨0, List.mem_range.mpr (by norm_num), by norm_num⟩

/-- C10: every failure branch of `calculate_nd_array_size` sets
`errno = EINVAL` and `anda_errfunc = "calculate_nd_array_size"`, except the
`total_ptrs > SIZE_MAX / sizeof(void*)` exit, which returns `false` with
both diagnostics left untouched. -/
theorem c10_diag_side_channel (sizes : List Nat) (elem_size : Nat)
    (outs0 : Outs) (d : Diag) :
    (hitsPtrOverflow sizes elem_size = true →
      calculate_nd_array_size sizes elem_size false false false outs0 d
        = (false, ⟨0, 0, 1⟩, d))
    ∧ (hitsPtrOverflow sizes elem_size = false →
      ∀ np npad ntot : Bool,
        (calculate_nd_array_size sizes elem_size np npad ntot outs0 d).1 = false →
        (calculate_nd_array_size sizes elem_size np npad ntot outs0 d).2.2
          = ⟨EINVAL, some "calculate_nd_array_size"⟩) := by
  constructor
  · intro hhit
    unfold hitsPtrOverflow at hhit
    simp only [Bool.and_eq_true, decide_eq_true_eq] at hhit
    obtain ⟨⟨he, hlen⟩, hm⟩ := hhit
    match hLoop : calcLoop sizes 1 0 with
    | none => rw [hLoop] at hm; exact absurd hm (by simp)
    | some (te, tp) =>
      rw [hLoop] at hm
      simp only [decide_eq_true_eq] at hm
      unfold calculate_nd_array_size
      rw [if_neg (by push_neg; refine ⟨he, by omega, by simp, by simp, by simp⟩),
        if_neg (by omega)]
      simp only [hLoop]
      rw [if_pos hm]
  · intro hhit np npad ntot hfail
    rcases hc : calculate_nd_array_size sizes elem_size np npad ntot outs0 d with ⟨b, o, d1⟩
    rw [hc] at hfail
    simp only at hfail
    subst hfail
    simp only
    exact calc_fail_diag sizes elem_size np npad ntot outs0 d o d1 hhit hc

/-- Witness for C10 at the silent branch: `[2^62, 2]`, `elem 1`, prior
diagnostics `errno 99` / `"zzz"` survive the failure unchanged. -/
theorem c10_diag_side_channel_witness :
    calculate_nd_array_size [2^62, 2] 1 false false false ⟨0, 0, 0⟩ ⟨99, some "zzz"⟩
      = (false, ⟨0, 0, 1⟩, ⟨99, some "zzz"⟩) :=
  (c10_diag_side_channel [2^62, 2] 1 ⟨0, 0, 0⟩ ⟨99, some "zzz"⟩).1 (by decide)

/-- C3: whenever the product of the extents times `elem_size` exceeds
`SIZE_MAX`, both allocation entry points fail and never invoke the
injected allocation primitive (no request list entry is produced). -/
theorem c3_overflow_no_alloc (sizes : List Nat) (elem_size : Nat)
    (alloc : Nat → Bool) (outs0 : Outs) (d : Diag)
    (h : SIZE_MAX < prodList sizes * elem_size) :
    (alloc_nd_array sizes elem_size alloc outs0 d).1 = none
    ∧ (alloc_nd_array sizes elem_size alloc outs0 d).2.1 = []
    ∧ (calloc_nd_array sizes elem_size alloc outs0 d).1 = none
    ∧ (calloc_nd_array sizes elem_size alloc outs0 d).2.1 = [] := by
  rcases hc : calculate_nd_array_size sizes elem_size false false false outs0 d with ⟨b, o, d1⟩
  match b with
  | true =>
    exfalso
    obtain ⟨he, hto, hle⟩ := calc_ok_facts _ _ _ _ _ _ hc
    rw [hto] at hle
    omega
  | false =>
    unfold alloc_nd_array calloc_nd_array
    rw [hc]
    simp

/-- C7: `anda_align_up` satisfies: identity at alignment 1; zero maps to
zero for every valid alignment; the sentinel 0 with `errno = EINVAL` on
`alignment == 0` or overflow; and for power-of-two alignments the bit-mask
branch agrees with the division-based rounding used for other alignments. -/
theorem c7_align_up_props :
    (∀ (v : Nat) (d : Diag), anda_align_up v 1 d = (v, d))
    ∧ (∀ (a : Nat) (d : Diag), 1 ≤ a → a ≤ SIZE_MAX →
        anda_align_up 0 a d = (0, d))
    ∧ (∀ (v : Nat) (d : Diag), anda_align_up v 0 d = (0, ⟨EINVAL, d.errfunc⟩))
    ∧ (∀ (v a : Nat) (d : Diag), 2 ≤ a → SIZE_MAX - (a - 1) < v →
        anda_align_up v a d = (0, ⟨EINVAL, d.errfunc⟩))
    ∧ (∀ (v a : Nat) (d : Diag), 2 ≤ a → a ≤ SIZE_MAX → v ≤ SIZE_MAX - (a - 1) →
        a &&& (a - 1) = 0 →
        (anda_align_up v a d).1 = (v + (a - 1)) / a * a) := by
  refine ⟨fun v d => by unfold anda_align_up; rw [if_pos rfl], ?_, ?_, ?_, ?_⟩
  · intro a d h1 hM
    rcases Nat.lt_or_ge a 2 with h2 | h2
    · have : a = 1 := by omega
      subst this
      unfold anda_align_up
      rw [if_pos rfl]
    · rw [anda_align_up_eq_nextMultiple 0 a d h2 hM (by omega)]
      unfold nextMultiple
      rw [Nat.zero_add, Nat.div_eq_of_lt (by omega), Nat.zero_mul]
  · intro v d
    unfold anda_align_up
    rw [if_neg (by omega), if_pos (Or.inl rfl)]
  · intro v a d ha hv
    unfold anda_align_up
    rw [if_neg (by omega), if_pos (Or.inr (by omega))]
  · intro v a d ha hM hv hpow
    rw [anda_align_up_eq_nextMultiple v a d ha hM hv]
    rfl

/-- Witness for C7 at concrete inputs (alignment 1; valid alignment 12 on 0;
alignment 0; overflow at `SIZE_MAX`; power-of-two alignment 8 on 5). -/
theorem c7_align_up_props_witness :
    anda_align_up 5 1 ⟨0, none⟩ = (5, ⟨0, none⟩)
    ∧ anda_align_up 0 12 ⟨0, none⟩ = (0, ⟨0, none⟩)
    ∧ anda_align_up 7 0 ⟨3, some "f"⟩ = (0, ⟨EINVAL, some "f"⟩)
    ∧ anda_align_up SIZE_MAX 16 ⟨0, none⟩ = (0, ⟨EINVAL, none⟩)
    ∧ (anda_align_up 5 8 ⟨0, none⟩).1 = (5 + (8 - 1)) / 8 * 8 :=
  ⟨c7_align_up_props.1 5 ⟨0, none⟩,
   c7_align_up_props.2.1 12 ⟨0, none⟩ (by decide) (by decide),
   c7_align_up_props.2.2.1 7 ⟨3, some "f"⟩,
   c7_align_up_props.2.2.2.1 SIZE_MAX 16 ⟨0, none⟩ (by decide) (by decide),
   c7_align_up_props.2.2.2.2 5 8 ⟨0, none⟩ (by decide) (by decide) (by decide) (by decide)⟩

/-- C6: on every success of `calculate_nd_array_size` (automatic padding),
the padding is 0 whenever `elem_size ≤ sizeof(void*)`; and whenever
`elem_size > sizeof(void*)`, `ptrs + padding` is the next multiple of
`elem_size` at or above `ptrs` (a multiple of `elem_size`, at least `ptrs`,
less than `ptrs + elem_size`), with `ptrs` itself never including the
padding. -/
theorem c6_padding_invariant (sizes : List Nat) (elem_size : Nat) (outs0 : Outs)
    (d : Diag) (o : Outs) (d1 : Diag) (hE : elem_size ≤ SIZE_MAX)
    (h : calculate_nd_array_size sizes elem_size false false false outs0 d = (true, o, d1)) :
    (elem_size ≤ PTRSIZE → o.padding = 0)
    ∧ (PTRSIZE < elem_size →
        o.ptrs + o.padding = nextMultiple o.ptrs elem_size
        ∧ (o.ptrs + o.padding) % elem_size = 0
        ∧ o.ptrs ≤ o.ptrs + o.padding
        ∧ o.padding < elem_size) := by
  unfold calculate_nd_array_size at h
  split at h
  · exact absurd h (by simp)
  · rename_i hguard
    have hepos : 0 < elem_size := by
      rcases Nat.eq_zero_or_pos elem_size with h0 | h0
      · exact absurd (Or.inl h0) hguard
      · exact h0
    split at h
    · split at h
      · exact absurd h (by simp)
      · simp only [Prod.mk.injEq, true_and] at h
        obtain ⟨ho, -⟩ := h
        rw [← ho]
        have h0 : nextMultiple 0 elem_size = 0 := by
          unfold nextMultiple
          rw [Nat.zero_add, Nat.div_eq_of_lt (by omega), Nat.zero_mul]
        exact ⟨fun _ => rfl, fun hgt => by simp [h0]; omega⟩
    · match hLoop : calcLoop sizes 1 0 with
      | none => simp only [hLoop] at h; exact absurd h (by simp)
      | some (te, tp) =>
        simp only [hLoop] at h
        split at h
        · exact absurd h (by simp)
        · split at h
          · rename_i hgt
            split at h
            · exact absurd h (by simp)
            · rename_i hnz
              obtain ⟨ho, -, -, -⟩ := calcFinal_ok _ _ _ _ _ _ _ hepos h
              by_cases hv : tp * PTRSIZE ≤ SIZE_MAX - (elem_size - 1)
              · have hchar := anda_align_up_eq_nextMultiple (tp * PTRSIZE) elem_size d
                  (by rw [PTRSIZE_eq] at hgt; omega) hE hv
                rw [hchar] at ho
                simp only at ho
                subst ho
                have hge := nextMultiple_ge (tp * PTRSIZE) elem_size hepos
                have hle := nextMultiple_le (tp * PTRSIZE) elem_size
                have hmod := nextMultiple_mod (tp * PTRSIZE) elem_size
                refine ⟨fun hle8 => by omega, fun _ => ?_⟩
                simp only
                have heq : tp * PTRSIZE + (nextMultiple (tp * PTRSIZE) elem_size - tp * PTRSIZE)
                    = nextMultiple (tp * PTRSIZE) elem_size := by omega
                rw [heq]
                exact ⟨rfl, hmod, hge, by omega⟩
              · exfalso
                have hbad : anda_align_up (tp * PTRSIZE) elem_size d = (0, ⟨EINVAL, d.errfunc⟩) := by
                  unfold anda_align_up
                  rw [if_neg (by rw [PTRSIZE_eq] at hgt; omega), if_pos (Or.inr (by omega))]
                rw [hbad] at hnz
                exact hnz rfl
          · rename_i hle8
            obtain ⟨ho, -, -, -⟩ := calcFinal_ok _ _ _ _ _ _ _ hepos h
            subst ho
            exact ⟨fun _ => rfl, fun hgt => absurd hgt hle8⟩

/-- Witness for C6 at `extents = [3, 2]`, `elem_size = 16` (success with
`ptrs = 24`, `padding = 8`, `total = 6`). -/
theorem c6_padding_invariant_witness :
    (24 : Nat) + 8 = nextMultiple 24 16
    ∧ ((24 : Nat) + 8) % 16 = 0
    ∧ (24 : Nat) ≤ 24 + 8
    ∧ (8 : Nat) < 16 := by
  have h := (c6_padding_invariant [3, 2] 16 ⟨0, 0, 0⟩ ⟨0, none⟩ ⟨24, 8, 6⟩ ⟨0, none⟩
    (by decide) (by decide)).2 (by decide)
  simpa using h

/-- The block builder with an always-succeeding allocation primitive and
`dims ≥ 2` requests exactly one block of
`(size_ptrs + size_padding + total_elements * elem_size) mod 2^64` bytes. -/
theorem allocate_ok_always (sizes : List Nat) (elem_size sp pad te : Nat) (d : Diag)
    (hd2 : 2 ≤ sizes.length) :
    allocate_and_initialize_nd_array sizes elem_size sp pad te (fun _ => true) d
      = (some (buildWrites sizes elem_size sp pad te),
         [(sp + pad + te * elem_size) % W], d) := by
  unfold allocate_and_initialize_nd_array
  rw [if_neg (by omega), if_pos rfl]

/-- C8 (amended): for shapes with `dims ≥ 2` on which the calculator
succeeds, and any `padding_bytes` such that
`size_ptrs + padding_bytes + total * elem_size ≤ SIZE_MAX`, both
manual-padding variants succeed (with an always-succeeding primitive) —
no alignment validation is performed — and the block size they request is
exactly that sum.  For `dims == 1` the builder ignores `padding_bytes`
(request `total * elem_size`), and when the sum exceeds `SIZE_MAX` the
request wraps modulo `2^64`. -/
theorem c8_manual_padding_amended (sizes : List Nat) (padding_bytes elem_size : Nat)
    (outs0 : Outs) (d : Diag) (o : Outs) (d1 : Diag)
    (hd2 : 2 ≤ sizes.length)
    (hc : calculate_nd_array_size sizes elem_size false false false outs0 d = (true, o, d1))
    (hnw : o.ptrs + padding_bytes + o.total * elem_size ≤ SIZE_MAX) :
    (alloc_nd_array_manual_padding sizes padding_bytes elem_size (fun _ => true) outs0 d).1.isSome = true
    ∧ (alloc_nd_array_manual_padding sizes padding_bytes elem_size (fun _ => true) outs0 d).2.1
        = [o.ptrs + padding_bytes + o.total * elem_size]
    ∧ (calloc_nd_array_manual_padding sizes padding_bytes elem_size (fun _ => true) outs0 d).1.isSome = true
    ∧ (calloc_nd_array_manual_padding sizes padding_bytes elem_size (fun _ => true) outs0 d).2.1
        = [o.ptrs + padding_bytes + o.total * elem_size] := by
  have hmod : (o.ptrs + padding_bytes + o.total * elem_size) % W
      = o.ptrs + padding_bytes + o.total * elem_size := by
    apply Nat.mod_eq_of_lt
    rw [SIZE_MAX_eq] at hnw
    rw [W_eq]
    omega
  unfold alloc_nd_array_manual_padding calloc_nd_array_manual_padding
  rw [hc]
  dsimp only
  rw [allocate_ok_always sizes elem_size o.ptrs padding_bytes o.total d1 hd2, hmod]
  simp

/-- Witness for the amended C8 at `extents = [1, 1]`, `padding_bytes = 0`,
`elem_size = 1`. -/
theorem c8_manual_padding_amended_witness :
    (alloc_nd_array_manual_padding [1, 1] 0 1 (fun _ => true) ⟨0, 0, 0⟩ ⟨0, none⟩).1.isSome = true
    ∧ (alloc_nd_array_manual_padding [1, 1] 0 1 (fun _ => true) ⟨0, 0, 0⟩ ⟨0, none⟩).2.1
        = [(⟨8, 0, 1⟩ : Outs).ptrs + 0 + (⟨8, 0, 1⟩ : Outs).total * 1]
    ∧ (calloc_nd_array_manual_padding [1, 1] 0 1 (fun _ => true) ⟨0, 0, 0⟩ ⟨0, none⟩).1.isSome = true
    ∧ (calloc_nd_array_manual_padding [1, 1] 0 1 (fun _ => true) ⟨0, 0, 0⟩ ⟨0, none⟩).2.1
        = [(⟨8, 0, 1⟩ : Outs).ptrs + 0 + (⟨8, 0, 1⟩ : Outs).total * 1] :=
  c8_manual_padding_amended [1, 1] 0 1 ⟨0, 0, 0⟩ ⟨0, none⟩ ⟨8, 0, 1⟩ ⟨0, none⟩
    (by decide) (by decide) (by decide)

/-- Counterexample to C8 as stated: the requested block size is computed in
wrapping `size_t` arithmetic and, for `dims == 1`, ignores `padding_bytes`
entirely.  With extents `[1,1]`, `elem 1`, `padding_bytes = SIZE_MAX` the
primitive is asked for 8 bytes, not `8 + SIZE_MAX + 1`; with extents `[2]`,
`elem 1`, `padding_bytes = 5` it is asked for 2 bytes, not `0 + 5 + 2`. -/
theorem c8_manual_padding_counterexample :
    (alloc_nd_array_manual_padding [1, 1] SIZE_MAX 1 (fun _ => true) ⟨0, 0, 0⟩ ⟨0, none⟩).2.1 = [8]
    ∧ (8 : Nat) ≠ 8 + SIZE_MAX + 1 * 1
    ∧ (alloc_nd_array_manual_padding [2] 5 1 (fun _ => true) ⟨0, 0, 0⟩ ⟨0, none⟩).2.1 = [2]
    ∧ (2 : Nat) ≠ 0 + 5 + 2 * 1 := by decide

/-- Witness for C3 at `extents = [SIZE_MAX, 2]`, `elem_size = 1`. -/
theorem c3_overflow_no_alloc_witness :
    (alloc_nd_array [SIZE_MAX, 2] 1 (fun _ => true) ⟨0, 0, 0⟩ ⟨0, none⟩).1 = none
    ∧ (alloc_nd_array [SIZE_MAX, 2] 1 (fun _ => true) ⟨0, 0, 0⟩ ⟨0, none⟩).2.1 = []
    ∧ (calloc_nd_array [SIZE_MAX, 2] 1 (fun _ => true) ⟨0, 0, 0⟩ ⟨0, none⟩).1 = none
    ∧ (calloc_nd_array [SIZE_MAX, 2] 1 (fun _ => true) ⟨0, 0, 0⟩ ⟨0, none⟩).2.1 = [] :=
  c3_overflow_no_alloc [SIZE_MAX, 2] 1 (fun _ => true) ⟨0, 0, 0⟩ ⟨0, none⟩ (by decide)

/-! Lookup lemmas for the write list. -/

theorem find_map_eq (g : Nat → Nat × Nat) (a j : Nat) :
    ∀ l : List Nat, j ∈ l → (g j).1 = a → (∀ i ∈ l, (g i).1 = a → i = j) →
      ((l.map g).find? fun p => p.1 == a) = some (g j)
  | [], hj, _, _ => absurd hj (List.not_mem_nil j)
  | x :: xs, hj, hga, huniq => by
    by_cases hx : (g x).1 = a
    · have hxj : x = j := huniq x (List.mem_cons_self x xs) hx
      rw [List.map_cons, List.find?_cons_of_pos _ (by simp [hx]), hxj]
    · have hjxs : j ∈ xs := by
        rcases List.mem_cons.mp hj with rfl | hm
        · exact absurd hga hx
        · exact hm
      rw [List.map_cons, List.find?_cons_of_neg _ (by simp [hx])]
      exact find_map_eq g a j xs hjxs hga fun i hi => huniq i (List.mem_cons_of_mem _ hi)

theorem memFind_append_skip (pre ws : List (Nat × Nat)) (a : Nat)
    (h : ∀ p ∈ pre, p.1 ≠ a) :
    memFind (pre ++ ws) a = memFind ws a := by
  unfold memFind
  rw [List.find?_append]
  have hnone : pre.find? (fun p => p.1 == a) = none := by
    rw [List.find?_eq_none]
    intro x hx
    simp [h x hx]
  rw [hnone, Option.none_or]

theorem memFind_append_found (ws1 ws2 : List (Nat × Nat)) (a v : Nat)
    (h : memFind ws1 a = some v) : memFind (ws1 ++ ws2) a = some v := by
  unfold memFind at h ⊢
  rw [List.find?_append]
  rcases Option.map_eq_some'.mp h with ⟨p, hp, hv⟩
  rw [hp]
  simp [Option.or, hv]

theorem memFind_range_map (n j off : Nat) (f : Nat → Nat) (hj : j < n) :
    memFind ((List.range n).map fun i => (PTRSIZE * (off + i), f i))
      (PTRSIZE * (off + j)) = some (f j) := by
  unfold memFind
  rw [find_map_eq (fun i => (PTRSIZE * (off + i), f i)) (PTRSIZE * (off + j)) j
    (List.range n) (List.mem_range.mpr hj) rfl ?uniq]
  · rfl
  case uniq =>
    intro i hi hfi
    simp only at hfi
    have := Nat.eq_of_mul_eq_mul_left (show 0 < PTRSIZE by decide) hfi
    omega

theorem chase_cons_read (ws : List (Nat × Nat)) (e i j : Nat) (tl : List Nat)
    (a v : Nat) (h : memFind ws (a + PTRSIZE * i) = some v) :
    chase ws e (i :: j :: tl) a = chase ws e (j :: tl) v := by
  simp only [chase, h]

/-! Arithmetic facts about the row-major flattening. -/

theorem prodList_pos_of_valid : ∀ (ix sizes : List Nat),
    validIx ix sizes = true → 1 ≤ prodList sizes
  | [], [], _ => Nat.le_refl 1
  | [], s :: ss, h => by simp [validIx] at h
  | i :: is, [], h => by simp [validIx] at h
  | i :: is, s :: ss, h => by
    simp only [validIx, Bool.and_eq_true, decide_eq_true_eq] at h
    have ih := prodList_pos_of_valid is ss h.2
    simp only [prodList, List.foldr_cons] at ih ⊢
    have hs : 1 ≤ s := by omega
    calc 1 = 1 * 1 := by norm_num
    _ ≤ s * List.foldr (· * ·) 1 ss := Nat.mul_le_mul hs ih

theorem flatFrom_bounds : ∀ (sizes ix : List Nat) (g : Nat),
    validIx ix sizes = true →
    g * prodList sizes ≤ flatFrom g sizes ix
      ∧ flatFrom g sizes ix < (g + 1) * prodList sizes
  | [], [], g, _ => by simp [flatFrom, prodList]
  | [], i :: is, g, h => by simp [validIx] at h
  | s :: ss, [], g, h => by simp [validIx] at h
  | s :: ss, i :: is, g, h => by
    simp only [validIx, Bool.and_eq_true, decide_eq_true_eq] at h
    obtain ⟨hi, hv⟩ := h
    have ih := flatFrom_bounds ss is (g * s + i) hv
    simp only [flatFrom, prodList, List.foldr_cons] at ih ⊢
    constructor
    · calc g * (s * List.foldr (· * ·) 1 ss) = g * s * List.foldr (· * ·) 1 ss := by ring
      _ ≤ (g * s + i) * List.foldr (· * ·) 1 ss := Nat.mul_le_mul_right _ (by omega)
      _ ≤ flatFrom (g * s + i) ss is := ih.1
    · calc flatFrom (g * s + i) ss is
          < (g * s + i + 1) * List.foldr (· * ·) 1 ss := ih.2
      _ ≤ (g + 1) * s * List.foldr (· * ·) 1 ss := by
          apply Nat.mul_le_mul_right
          calc g * s + i + 1 ≤ g * s + s := by omega
          _ = (g + 1) * s := by ring
      _ = (g + 1) * (s * List.foldr (· * ·) 1 ss) := by ring

theorem flatFrom_inj : ∀ (sizes ix1 ix2 : List Nat) (g : Nat),
    validIx ix1 sizes = true → validIx ix2 sizes = true →
    flatFrom g sizes ix1 = flatFrom g sizes ix2 → ix1 = ix2
  | [], ix1, ix2, g, h1, h2, _ => by
    match ix1, ix2, h1, h2 with
    | [], [], _, _ => rfl
    | i :: is, _, h1, _ => simp [validIx] at h1
    | [], j :: js, _, h2 => simp [validIx] at h2
  | s :: ss, ix1, ix2, g, h1, h2, heq => by
    match ix1, ix2, h1, h2, heq with
    | [], _, h1, _, _ => simp [validIx] at h1
    | i :: is, [], _, h2, _ => simp [validIx] at h2
    | i :: is, j :: js, h1, h2, heq =>
      simp only [validIx, Bool.and_eq_true, decide_eq_true_eq] at h1 h2
      obtain ⟨hi, hv1⟩ := h1
      obtain ⟨hj, hv2⟩ := h2
      simp only [flatFrom] at heq
      have b1 := flatFrom_bounds ss is (g * s + i) hv1
      have b2 := flatFrom_bounds ss js (g * s + j) hv2
      have hij : i = j := by
        by_contra hne
        rcases Nat.lt_or_ge i j with hlt | hge
        · have hstep : g * s + i + 1 ≤ g * s + j := by omega
          have : flatFrom (g * s + i) ss is < flatFrom (g * s + j) ss js :=
            Nat.lt_of_lt_of_le b1.2
              (Nat.le_trans (Nat.mul_le_mul_right _ hstep) b2.1)
          omega
        · have hlt : j < i := by omega
          have hstep : g * s + j + 1 ≤ g * s + i := by omega
          have : flatFrom (g * s + j) ss js < flatFrom (g * s + i) ss is :=
            Nat.lt_of_lt_of_le b2.2
              (Nat.le_trans (Nat.mul_le_mul_right _ hstep) b1.1)
          omega
      subst hij
      have : is = js := flatFrom_inj ss is js (g * s + i) hv1 hv2 heq
      rw [this]

/-! The central pointer-chain lemma: over the writes produced by the block
builder, following the chain from the level of `suffix` (a suffix of the
extents, starting at cell offset `off`, with `curr` cells per unit index and
prefix flat index `g`) reaches the data-region byte offset given by the
row-major flat index.  `pre` collects the writes of the already-built levels,
all at lower addresses. -/

theorem chase_buildFrom (elem_size base : Nat) :
    ∀ (suffix : List Nat) (off curr g te : Nat) (pre : List (Nat × Nat))
      (ix : List Nat),
      2 ≤ suffix.length →
      (∀ p ∈ pre, p.1 < PTRSIZE * off) →
      g < curr →
      te = curr * prodList suffix →
      validIx ix suffix = true →
      chase (pre ++ buildFrom elem_size base te suffix off curr) elem_size ix
        (PTRSIZE * (off + g * suffix.headD 0))
        = some (base + flatFrom g suffix ix * elem_size)
  | [], off, curr, g, te, pre, ix => by intro h2 _ _ _ _; simp at h2
  | [s0], off, curr, g, te, pre, ix => by intro h2 _ _ _ _; simp at h2
  | [s0, s1], off, curr, g, te, pre, ix => by
    intro h2 hpre hg hte hix
    match ix, hix with
    | [], hix => simp [validIx] at hix
    | [i0], hix => simp [validIx] at hix
    | i0 :: i1 :: i2 :: tl, hix => simp [validIx] at hix
    | [i0, i1], hix =>
      simp only [validIx, Bool.and_eq_true, decide_eq_true_eq] at hix
      obtain ⟨hi0, hi1, -⟩ := hix
      have hs1 : 0 < s1 := by omega
      have hrows : te / s1 = curr * s0 := by
        rw [hte]
        simp only [prodList, List.foldr_cons, List.foldr_nil, Nat.mul_one]
        rw [show curr * (s0 * s1) = curr * s0 * s1 by ring]
        exact Nat.mul_div_cancel _ hs1
      have hj : g * s0 + i0 < curr * s0 := by
        calc g * s0 + i0 < g * s0 + s0 := by omega
        _ = (g + 1) * s0 := by ring
        _ ≤ curr * s0 := Nat.mul_le_mul_right s0 (by omega)
      simp only [buildFrom, List.headD_cons]
      have hmf : memFind
          (pre ++ (List.range (te / s1)).map fun i =>
            (PTRSIZE * (off + i), base + i * s1 * elem_size))
          (PTRSIZE * (off + g * s0) + PTRSIZE * i0)
          = some (base + (g * s0 + i0) * s1 * elem_size) := by
        rw [show PTRSIZE * (off + g * s0) + PTRSIZE * i0
          = PTRSIZE * (off + (g * s0 + i0)) by ring]
        rw [memFind_append_skip _ _ _ (fun p hp => by
          have hlt := hpre p hp
          have hle : PTRSIZE * off ≤ PTRSIZE * (off + (g * s0 + i0)) :=
            Nat.mul_le_mul_left _ (by omega)
          omega)]
        exact memFind_range_map (te / s1) (g * s0 + i0) off
          (fun i => base + i * s1 * elem_size) (by rw [hrows]; exact hj)
      rw [chase_cons_read _ _ _ _ _ _ _ hmf]
      simp only [chase, flatFrom, Option.some.injEq]
      ring
  | s0 :: s1 :: s2 :: rs, off, curr, g, te, pre, ix => by
    intro h2 hpre hg hte hix
    match ix, hix with
    | [], hix => simp [validIx] at hix
    | i0 :: ixtl, hix =>
      match ixtl, hix with
      | [], hix => simp [validIx] at hix
      | j0 :: tl, hix =>
        simp only [validIx, Bool.and_eq_true, decide_eq_true_eq] at hix
        obtain ⟨hi0, hj0, htl⟩ := hix
        have hrest : validIx (j0 :: tl) (s1 :: s2 :: rs) = true := by
          simp only [validIx, Bool.and_eq_true, decide_eq_true_eq]
          exact ⟨hj0, htl⟩
        have hj : g * s0 + i0 < curr * s0 := by
          calc g * s0 + i0 < g * s0 + s0 := by omega
          _ = (g + 1) * s0 := by ring
          _ ≤ curr * s0 := Nat.mul_le_mul_right s0 (by omega)
        simp only [buildFrom, List.headD_cons]
        rw [← List.append_assoc]
        have hmf : memFind
            ((pre ++ (List.range (curr * s0)).map fun i =>
              (PTRSIZE * (off + i), PTRSIZE * (off + curr * s0 + i * s1)))
             ++ buildFrom elem_size base te (s1 :: s2 :: rs) (off + curr * s0) (curr * s0))
            (PTRSIZE * (off + g * s0) + PTRSIZE * i0)
            = some (PTRSIZE * (off + curr * s0 + (g * s0 + i0) * s1)) := by
          rw [show PTRSIZE * (off + g * s0) + PTRSIZE * i0
            = PTRSIZE * (off + (g * s0 + i0)) by ring]
          apply memFind_append_found
          rw [memFind_append_skip _ _ _ (fun p hp => by
            have hlt := hpre p hp
            have hle : PTRSIZE * off ≤ PTRSIZE * (off + (g * s0 + i0)) :=
              Nat.mul_le_mul_left _ (by omega)
            omega)]
          exact memFind_range_map (curr * s0) (g * s0 + i0) off
            (fun i => PTRSIZE * (off + curr * s0 + i * s1)) hj
        rw [chase_cons_read _ _ _ _ _ _ _ hmf]
        have hpre2 : ∀ p ∈ pre ++ (List.range (curr * s0)).map fun i =>
            (PTRSIZE * (off + i), PTRSIZE * (off + curr * s0 + i * s1)),
            p.1 < PTRSIZE * (off + curr * s0) := by
          intro p hp
          rcases List.mem_append.mp hp with hm | hm
          · have := hpre p hm
            have hle : PTRSIZE * off ≤ PTRSIZE * (off + curr * s0) :=
              Nat.mul_le_mul_left _ (by omega)
            omega
          · obtain ⟨i, hi, rfl⟩ := List.mem_map.mp hm
            have hi2 : i < curr * s0 := List.mem_range.mp hi
            simp only
            rw [PTRSIZE_eq]
            omega
        have hte2 : te = curr * s0 * prodList (s1 :: s2 :: rs) := by
          rw [hte]
          simp only [prodList, List.foldr_cons]
          ring
        have ihres := chase_buildFrom elem_size base (s1 :: s2 :: rs)
          (off + curr * s0) (curr * s0) (g * s0 + i0) te
          (pre ++ (List.range (curr * s0)).map fun i =>
            (PTRSIZE * (off + i), PTRSIZE * (off + curr * s0 + i * s1)))
          (j0 :: tl) (by simp) hpre2 hj hte2 hrest
        simp only [List.headD_cons] at ihres
        rw [show PTRSIZE * (off + curr * s0 + (g * s0 + i0) * s1)
          = PTRSIZE * (off + curr * s0 + (g * s0 + i0) * s1) from rfl]
        simp only [flatFrom]
        exact ihres

/-! Facts needed to restrict the pointer-chain theorem to shapes on which
the builder's pointer arithmetic does not wrap: the loop's (wrapped)
`total_ptrs`, extent positivity, and bounds on every write the builder
performs. -/

theorem prodList_pos (l : List Nat) (h : ∀ s ∈ l, 1 ≤ s) : 1 ≤ prodList l := by
  induction l with
  | nil => simp [prodList]
  | cons s rest ih =>
    have hs : 1 ≤ s := h s (by simp)
    have hr : 1 ≤ prodList rest := ih fun x hx => h x (by simp [hx])
    simp only [prodList, List.foldr_cons] at hr ⊢
    have := Nat.mul_le_mul hs hr
    omega

theorem calcLoop_pos : ∀ (l : List Nat) (t p te tp : Nat),
    calcLoop l t p = some (te, tp) → ∀ s ∈ l, 1 ≤ s
  | [], t, p, te, tp => by intro _ s hs; simp at hs
  | [s0], t, p, te, tp => by
    intro h s hs
    simp only [calcLoop] at h
    split at h
    · exact absurd h (by simp)
    · rename_i hg
      push_neg at hg
      simp only [List.mem_singleton] at hs
      omega
  | s0 :: r :: rs, t, p, te, tp => by
    intro h s hs
    simp only [calcLoop] at h
    split at h
    · exact absurd h (by simp)
    · rename_i hg
      push_neg at hg
      rcases List.mem_cons.mp hs with rfl | hm
      · omega
      · exact calcLoop_pos (r :: rs) (t * s0) ((p + t * s0) % W) te tp h s hm

/-- The loop's `total_ptrs` output is the mathematical pointer-cell sum
reduced modulo `2^64` (the accumulation is wrapping `size_t` addition). -/
theorem calcLoop_tp : ∀ (l : List Nat) (t p te tp : Nat), p < W →
    calcLoop l t p = some (te, tp) → tp = (p + sumPtrsAux l t) % W
  | [], t, p, te, tp => by
    intro hp h
    simp only [calcLoop, Option.some.injEq, Prod.mk.injEq] at h
    simp only [sumPtrsAux, Nat.add_zero]
    rw [← h.2, Nat.mod_eq_of_lt hp]
  | [s0], t, p, te, tp => by
    intro hp h
    simp only [calcLoop] at h
    split at h
    · exact absurd h (by simp)
    · simp only [Option.some.injEq, Prod.mk.injEq] at h
      simp only [sumPtrsAux, Nat.add_zero]
      rw [← h.2, Nat.mod_eq_of_lt hp]
  | s0 :: r :: rs, t, p, te, tp => by
    intro hp h
    simp only [calcLoop] at h
    split at h
    · exact absurd h (by simp)
    · have hW : 0 < W := by rw [W_eq]; omega
      have ih := calcLoop_tp (r :: rs) (t * s0) ((p + t * s0) % W) te tp
        (Nat.mod_lt _ hW) h
      rw [ih, Nat.mod_add_mod]
      simp only [sumPtrsAux]
      rw [Nat.add_assoc]

/-- Success facts for `dims ≥ 2`: all extents positive, `result_ptrs_size`
is the wrapped pointer-cell sum times the pointer size, and the final block
size fits below `SIZE_MAX`. -/
theorem calc_ok_facts2 (sizes : List Nat) (elem_size : Nat) (outs0 : Outs)
    (d : Diag) (o : Outs) (d1 : Diag) (hd2 : 2 ≤ sizes.length)
    (h : calculate_nd_array_size sizes elem_size false false false outs0 d = (true, o, d1)) :
    (∀ s ∈ sizes, 1 ≤ s)
    ∧ o.ptrs = sumPtrs sizes % W * PTRSIZE
    ∧ o.total * elem_size ≤ SIZE_MAX - o.ptrs - o.padding := by
  unfold calculate_nd_array_size at h
  split at h
  · exact absurd h (by simp)
  · rename_i hguard
    have hepos : 0 < elem_size := by
      rcases Nat.eq_zero_or_pos elem_size with h0 | h0
      · exact absurd (Or.inl h0) hguard
      · exact h0
    split at h
    · rename_i hlen1
      omega
    · match hLoop : calcLoop sizes 1 0 with
      | none => simp only [hLoop] at h; exact absurd h (by simp)
      | some (te, tp) =>
        simp only [hLoop] at h
        have hpos := calcLoop_pos sizes 1 0 te tp hLoop
        have htp : tp = sumPtrs sizes % W := by
          have := calcLoop_tp sizes 1 0 te tp (by rw [W_eq]; omega) hLoop
          simpa [sumPtrs] using this
        split at h
        · exact absurd h (by simp)
        · split at h
          · split at h
            · exact absurd h (by simp)
            · obtain ⟨ho, -, -, hres⟩ := calcFinal_ok _ _ _ _ _ _ _ hepos h
              subst ho
              exact ⟨hpos, by rw [htp], hres⟩
          · obtain ⟨ho, -, -, hres⟩ := calcFinal_ok _ _ _ _ _ _ _ hepos h
            subst ho
            exact ⟨hpos, by rw [htp], hres⟩

/-- Every write the builder performs lies below the end of the pointer
region it is constructing, and every stored value is either another
pointer-region address or a data-region address below `base + te * elem`. -/
theorem buildFrom_bounded (elem_size base : Nat) :
    ∀ (suffix : List Nat) (off curr te : Nat),
      1 ≤ elem_size →
      1 ≤ curr →
      (∀ s ∈ suffix, 1 ≤ s) →
      te = curr * prodList suffix →
      ∀ p ∈ buildFrom elem_size base te suffix off curr,
        p.1 < PTRSIZE * (off + sumPtrsAux suffix curr)
        ∧ (p.2 < PTRSIZE * (off + sumPtrsAux suffix curr)
            ∨ p.2 < base + te * elem_size)
  | [], off, curr, te => by
    intro _ _ _ _ p hp
    simp [buildFrom] at hp
  | [s0], off, curr, te => by
    intro _ _ _ _ p hp
    simp [buildFrom] at hp
  | [s0, s1], off, curr, te => by
    intro he hc hpos hte p hp
    have hs0 : 1 ≤ s0 := hpos s0 (by simp)
    have hs1 : 1 ≤ s1 := hpos s1 (by simp)
    have hcc : 1 ≤ curr * s0 := by
      have := Nat.mul_le_mul hc hs0
      omega
    have hte2 : te = curr * s0 * s1 := by
      rw [hte]
      simp only [prodList, List.foldr_cons, List.foldr_nil, Nat.mul_one]
      ring
    have hrows : te / s1 = curr * s0 := by
      rw [hte2]
      exact Nat.mul_div_cancel _ (by omega)
    have hsum : sumPtrsAux [s0, s1] curr = curr * s0 := by
      simp [sumPtrsAux]
    simp only [buildFrom, hrows] at hp
    obtain ⟨i, hi, rfl⟩ := List.mem_map.mp hp
    have hilt : i < curr * s0 := List.mem_range.mp hi
    constructor
    · simp only
      rw [hsum, PTRSIZE_eq]
      omega
    · right
      simp only
      have h1 : i * s1 + s1 ≤ curr * s0 * s1 := by
        have := Nat.mul_le_mul_right s1 (show i + 1 ≤ curr * s0 from hilt)
        rw [Nat.add_mul, Nat.one_mul] at this
        exact this
      have h2 : i * s1 * elem_size + elem_size ≤ te * elem_size := by
        have := Nat.mul_le_mul_right elem_size
          (show i * s1 + 1 ≤ te by omega)
        rw [Nat.add_mul, Nat.one_mul] at this
        exact this
      omega
  | s0 :: s1 :: s2 :: rs, off, curr, te => by
    intro he hc hpos hte p hp
    have hs0 : 1 ≤ s0 := hpos s0 (by simp)
    have hs1 : 1 ≤ s1 := hpos s1 (by simp)
    have hcc : 1 ≤ curr * s0 := by
      have := Nat.mul_le_mul hc hs0
      omega
    have hsum : sumPtrsAux (s0 :: s1 :: s2 :: rs) curr
        = curr * s0 + sumPtrsAux (s1 :: s2 :: rs) (curr * s0) := by
      simp [sumPtrsAux]
    have hsum2 : curr * s0 * s1 ≤ sumPtrsAux (s1 :: s2 :: rs) (curr * s0) := by
      simp only [sumPtrsAux]
      omega
    simp only [buildFrom] at hp
    rcases List.mem_append.mp hp with hm | hm
    · obtain ⟨i, hi, rfl⟩ := List.mem_map.mp hm
      have hilt : i < curr * s0 := List.mem_range.mp hi
      constructor
      · simp only
        rw [hsum, PTRSIZE_eq]
        omega
      · left
        simp only
        rw [hsum, PTRSIZE_eq]
        have h1 : i * s1 + s1 ≤ curr * s0 * s1 := by
          have := Nat.mul_le_mul_right s1 (show i + 1 ≤ curr * s0 from hilt)
          rw [Nat.add_mul, Nat.one_mul] at this
          exact this
        omega
    · have ih := buildFrom_bounded elem_size base (s1 :: s2 :: rs)
        (off + curr * s0) (curr * s0) te he hcc
        (fun s hs => hpos s (List.mem_cons_of_mem s0 hs))
        (by rw [hte]; simp only [prodList, List.foldr_cons]; ring) p hm
      rw [hsum]
      obtain ⟨ih1, ih2⟩ := ih
      constructor
      · rw [PTRSIZE_eq] at ih1 ⊢
        omega
      · rcases ih2 with hv | hv
        · left
          rw [PTRSIZE_eq] at hv ⊢
          omega
        · right
          exact hv

/-- C1 (amended): restricted to shapes whose pointer-cell sum does not
overflow (`sumPtrs sizes ≤ SIZE_MAX / sizeof(void*)`, so the builder's
pointer arithmetic cannot wrap): for any `dims ≥ 2` layout `(sp, pad, te)`
produced by a successful `calculate_nd_array_size` call, following the
pointer chain built by `allocate_and_initialize_nd_array` for any in-range
multi-index reaches exactly the leaf byte offset
`sp + pad + (row-major flat index) * elem_size`; distinct multi-indices
reach distinct leaf offsets (all `product(extents)` slots independently
addressable); and every pointer-cell write has its byte address strictly
inside the pointer region `[0, sp)` and stores a value at most `SIZE_MAX`,
so the modelled construction coincides with the 64-bit machine's. -/
theorem c1_pointer_chain (sizes : List Nat) (elem_size : Nat) (outs0 : Outs)
    (d : Diag) (sp pad te : Nat) (d1 : Diag)
    (hd2 : 2 ≤ sizes.length)
    (hnw : sumPtrs sizes ≤ SIZE_MAX / PTRSIZE)
    (hcalc : calculate_nd_array_size sizes elem_size false false false outs0 d
      = (true, ⟨sp, pad, te⟩, d1)) :
    (∀ ix : List Nat, validIx ix sizes = true →
      chase (buildWrites sizes elem_size sp pad te) elem_size ix 0
        = some (sp + pad + flatIndex sizes ix * elem_size))
    ∧ (∀ ix1 ix2 : List Nat, validIx ix1 sizes = true → validIx ix2 sizes = true →
        sp + pad + flatIndex sizes ix1 * elem_size
          = sp + pad + flatIndex sizes ix2 * elem_size → ix1 = ix2)
    ∧ (∀ p ∈ buildWrites sizes elem_size sp pad te,
        p.1 < sp ∧ p.2 ≤ SIZE_MAX) := by
  obtain ⟨he, hto, -⟩ := calc_ok_facts _ _ _ _ _ _ hcalc
  obtain ⟨hext, hsp, hres⟩ := calc_ok_facts2 _ _ _ _ _ _ hd2 hcalc
  simp only at hto hsp hres
  have hepos : 0 < elem_size := Nat.pos_of_ne_zero he
  have hmodW : sumPtrs sizes % W = sumPtrs sizes := by
    apply Nat.mod_eq_of_lt
    have hlt : SIZE_MAX / PTRSIZE < W := by
      rw [SIZE_MAX_eq, W_eq, PTRSIZE_eq]
      norm_num
    omega
  rw [hmodW] at hsp
  refine ⟨?_, ?_, ?_⟩
  · intro ix hix
    have h := chase_buildFrom elem_size (sp + pad) sizes 0 1 0 te [] ix
      hd2 (by simp) (by omega) (by simpa using hto) hix
    simpa [buildWrites, flatIndex] using h
  · intro ix1 ix2 h1 h2 heq
    have hflat : flatIndex sizes ix1 = flatIndex sizes ix2 :=
      Nat.eq_of_mul_eq_mul_right hepos (by omega)
    exact flatFrom_inj sizes ix1 ix2 0 h1 h2 hflat
  · intro p hp
    simp only [buildWrites] at hp
    have hb := buildFrom_bounded elem_size (sp + pad) sizes 0 1 te hepos
      (Nat.le_refl 1) hext (by rw [hto, Nat.one_mul]) p hp
    have hsum1 : sumPtrsAux sizes 1 = sumPtrs sizes := rfl
    rw [Nat.zero_add, hsum1] at hb
    have hspv : sp = PTRSIZE * sumPtrs sizes := by
      rw [hsp, Nat.mul_comm]
    have hspM : sp ≤ SIZE_MAX := by
      have h1 : sumPtrs sizes * PTRSIZE ≤ SIZE_MAX / PTRSIZE * PTRSIZE :=
        Nat.mul_le_mul_right PTRSIZE hnw
      have h2 : SIZE_MAX / PTRSIZE * PTRSIZE ≤ SIZE_MAX :=
        Nat.div_mul_le_self SIZE_MAX PTRSIZE
      rw [hsp]
      omega
    have htepos : 1 ≤ te := by
      rw [hto]
      exact prodList_pos sizes hext
    have htotM : sp + pad + te * elem_size ≤ SIZE_MAX := by
      have h1 : 1 ≤ te * elem_size := by
        have := Nat.mul_le_mul htepos hepos
        omega
      omega
    obtain ⟨hb1, hb2⟩ := hb
    rw [← hspv] at hb1 hb2
    refine ⟨hb1, ?_⟩
    rcases hb2 with hv | hv
    · omega
    · omega

/-- Witness for the amended C1 at the spec's round-trip example: extents
`[2,3,4]`, `elem_size = 8` (layout `(64, 0, 24)`, pointer-cell sum 8),
multi-index `[1,2,3]` reaches `64 + 0 + 23 * 8`. -/
theorem c1_pointer_chain_witness :
    chase (buildWrites [2, 3, 4] 8 64 0 24) 8 [1, 2, 3] 0
      = some (64 + 0 + flatIndex [2, 3, 4] [1, 2, 3] * 8) :=
  (c1_pointer_chain [2, 3, 4] 8 ⟨0, 0, 0⟩ ⟨0, none⟩ 64 0 24 ⟨0, none⟩
    (by decide) (by decide) (by decide)).1 [1, 2, 3] (by decide)

/-- Counterexample to C1 as stated: the claim's domain (every layout the
calculator accepts) also contains the wrapped-sum shape
`[2^61,1,1,1,1,1,1,1,2]` with `elem_size = 1`, where the calculator
succeeds, yet the builder must write the first level-1 pointer cell at byte
address `8 * 2^61 = 2^64 > SIZE_MAX` — an address that does not exist on a
64-bit machine and that wraps onto byte 0, where the level-0 table lives —
so the pointer tables are not correct and the leaf slots are not
independently addressable there.  The shape violates exactly the amended
claim's no-wrap bound. -/
theorem c1_wrap_counterexample :
    calculate_nd_array_size [2^61, 1, 1, 1, 1, 1, 1, 1, 2] 1 false false false
        ⟨0, 0, 0⟩ ⟨0, none⟩
      = (true, ⟨0, 0, 2^62⟩, ⟨0, none⟩)
    ∧ (PTRSIZE * 2^61, PTRSIZE * 2^62)
        ∈ buildWrites [2^61, 1, 1, 1, 1, 1, 1, 1, 2] 1 0 0 (2^62)
    ∧ SIZE_MAX < PTRSIZE * 2^61
    ∧ PTRSIZE * 2^61 % W = 0
    ∧ SIZE_MAX / PTRSIZE < sumPtrs [2^61, 1, 1, 1, 1, 1, 1, 1, 2] := by
  refine ⟨by decide, ?_, by decide, by decide, by decide⟩
  simp only [buildWrites, buildFrom]
  apply List.mem_append_right
  apply List.mem_append_left
  apply List.mem_map.mpr
  refine ⟨0, List.mem_range.mpr (by norm_num), by norm_num⟩

end AllocNdArray
